import Mathlib

/-!
Verification of `scripts/greedy_partitioning_hyperloglog.py`.

The script discovers HyperLogLog sketch files, estimates each genome's
cardinality through an external sketching engine (`dashing`), and assigns
genomes to a fixed number of bins by greedy number partitioning, merging
sketches to keep each bin's aggregate cardinality overlap-aware.

The embedding below models sketch files as values of an abstract type `S`,
and the external engine as a `Capability S`: a fallible cardinality
estimator together with a fallible union (merge) operation, both returning
`Except String _` to model `subprocess.run(..., check=True)` raising on
failure.
-/

set_option maxRecDepth 100000

namespace HLLB

instance {ε α : Type} [DecidableEq ε] [DecidableEq α] : DecidableEq (Except ε α) :=
  fun x y =>
    match x, y with
    | .ok a, .ok b =>
      if h : a = b then isTrue (by rw [h]) else isFalse (by simp [h])
    | .error a, .error b =>
      if h : a = b then isTrue (by rw [h]) else isFalse (by simp [h])
    | .ok _, .error _ => isFalse (by simp)
    | .error _, .ok _ => isFalse (by simp)

/-- Python `str.split(sep)` on a list of characters: splits at every
occurrence of `c`, keeping empty pieces (`"a..b".split(".") == ["a","","b"]`,
`"".split(".") == [""]`). -/
def splitChars (c : Char) : List Char → List (List Char)
  | [] => [[]]
  | x :: xs =>
    let r := splitChars c xs
    if x = c then [] :: r
    else
      match r with
      | [] => [[x]]
      | h :: t => (x :: h) :: t

/-- Python `s.split(sep)` for a single-character separator. -/
def pySplit (c : Char) (s : String) : List String :=
  (splitChars c s.data).map List.asString

/-- Python `os.path.basename`: the part of the path after the last `/`. -/
def pyBasename (s : String) : String :=
  (pySplit '/' s).getLastD s

/-- The fixed reserved vocabulary of `extract_genome_name`: tokens that
describe sketch-construction parameters rather than the genome name. -/
def reservedTokens : List String :=
  ["fa", "fq", "gz", "w", "31", "spacing", "10", "hll"]

/-- `extract_genome_name` from the script: take the file name (basename),
split it on `.`, and return the first part not among the known extension
tokens; if none qualifies, return the file name unchanged. -/
def extract_genome_name (filepath : String) : String :=
  let filename := pyBasename filepath
  match (pySplit '.' filename).find? (fun part => !(reservedTokens.contains part)) with
  | some part => part
  | none => filename

/-- Modelled from the spec: `canonical_name(raw_key)` splits the raw key into
dot-delimited tokens and returns the first token not belonging to the fixed
reserved vocabulary; if every token is reserved it returns the raw key
unchanged.  This definition follows the spec's words and is compared with
the code's `extract_genome_name`. -/
def canonical_name_spec (raw_key : String) : String :=
  match (pySplit '.' raw_key).find? (fun part => !(reservedTokens.contains part)) with
  | some part => part
  | none => raw_key

/-- The sketch capability interface: cardinality estimation and sketch
union, both of which may fail (a failed `dashing` subprocess raises). -/
structure Capability (S : Type) where
  card : S → Except String ℚ
  union : S → S → Except String S

/-- A capability whose calls always succeed, given by pure estimation and
merge functions. -/
def Capability.ofPure {S : Type} (c : S → ℚ) (u : S → S → S) : Capability S :=
  ⟨fun s => Except.ok (c s), fun a b => Except.ok (u a b)⟩

/-- A concrete capability on rational "sketches": estimation is the value
itself and union adds (the behaviour of disjoint contents). -/
def pureCapQ : Capability ℚ :=
  Capability.ofPure id (· + ·)

/-- A capability whose cardinality estimation always fails, modelling a
broken `dashing card` subprocess. -/
def badCapQ : Capability ℚ :=
  ⟨fun _ => Except.error "dashing card failed", fun a b => Except.ok (a + b)⟩

/-- The partitioner's mutable state: the three parallel lists
`bin_result`, `bin_paths` (modelled by the sketch value currently stored at
each bin path, `none` while the file does not exist yet) and
`bin_cardinalities` of the script. -/
structure PartState (S : Type) where
  bin_result : List (List String)
  bin_sketches : List (Option S)
  bin_cardinalities : List ℚ

/-- Python `lst.index(min(lst))` packaged with the minimum itself:
`none` on an empty list (`min()` raises), otherwise
`some (first index attaining the minimum, the minimum)`. -/
def pyMinWithIndex : List ℚ → Option (ℕ × ℚ)
  | [] => none
  | x :: xs =>
    match pyMinWithIndex xs with
    | none => some (0, x)
    | some (j, v) => if v < x then some (j + 1, v) else some (0, x)

/-- Python slicing `l[n:]` for an arbitrary (possibly negative) integer `n`. -/
def pySliceFrom {α : Type} (n : Int) (l : List α) : List α :=
  if 0 ≤ n then l.drop n.toNat
  else l.drop (max 0 ((l.length : Int) + n)).toNat

/-- Python's string comparison `a < b` on code-point sequences:
lexicographic, with a proper prefix smaller than the longer string. -/
def pyStrLtB : List Char → List Char → Bool
  | [], [] => false
  | [], _ :: _ => true
  | _ :: _, [] => false
  | a :: as, b :: bs =>
    if a.toNat < b.toNat then true
    else if b.toNat < a.toNat then false
    else pyStrLtB as bs

/-- Python's `a <= b` on strings, as the negation of `b < a`. -/
def pyStrLe (a b : String) : Prop :=
  pyStrLtB b.data a.data = false

instance : DecidableRel pyStrLe :=
  fun a b => inferInstanceAs (Decidable (pyStrLtB b.data a.data = false))

/-- Ordering of discovered sketch files: `sorted(glob.glob(...))`, i.e.
lexicographic on the path. -/
def pathLe {S : Type} (a b : String × S) : Prop :=
  pyStrLe a.1 b.1

instance {S : Type} : DecidableRel (@pathLe S) :=
  fun a b => inferInstanceAs (Decidable (pyStrLe a.1 b.1))

/-- Ordering used by `genome_data.sort(key=lambda x: x[2], reverse=True)`:
descending cardinality.  A stable sort for this relation keeps ties in
discovery order, as Python's stable `sort` does. -/
def cardGe {S : Type} (a b : String × S × ℚ) : Prop :=
  b.2.2 ≤ a.2.2

instance {S : Type} : DecidableRel (@cardGe S) :=
  fun a b => inferInstanceAs (Decidable (b.2.2 ≤ a.2.2))

/-- The discovered sketch files, in the deterministic order the script
processes them: sorted lexicographically by path. -/
def discoveredOf {S : Type} (files : List (String × S)) : List (String × S) :=
  List.insertionSort pathLe files

/-- The loop building `genome_data`: for each discovered sketch, in order,
extract the genome name and estimate its cardinality (which may fail). -/
def estimateAll {S : Type} (cap : Capability S) :
    List (String × S) → Except String (List (String × S × ℚ))
  | [] => Except.ok []
  | ps :: rest =>
    (cap.card ps.2).bind fun c =>
      (estimateAll cap rest).bind fun tail =>
        Except.ok ((extract_genome_name ps.1, ps.2, c) :: tail)

/-- `genome_data` for a capability that never fails, with pure estimator `c`. -/
def genomeDataOf {S : Type} (c : S → ℚ) (files : List (String × S)) :
    List (String × S × ℚ) :=
  (discoveredOf files).map fun ps => (extract_genome_name ps.1, ps.2, c ps.2)

/-- `genome_data` after the descending stable sort by cardinality, for a
capability that never fails. -/
def sortedDataOf {S : Type} (c : S → ℚ) (files : List (String × S)) :
    List (String × S × ℚ) :=
  List.insertionSort cardGe (genomeDataOf c files)

/-- The freshly initialized bins: `numbins` empty member lists, no bin
sketch files yet, all cardinalities `0`. -/
def initState (S : Type) (numbins : Int) : PartState S :=
  { bin_result := List.replicate numbins.toNat []
    bin_sketches := List.replicate numbins.toNat none
    bin_cardinalities := List.replicate numbins.toNat 0 }

/-- One iteration of the seed loop
`for i in range(min(numbins, len(genome_data)))`: bin `i` receives the
`i`-th sorted genome's name, a copy of its sketch, and its cardinality. -/
def seedStep {S : Type} (sorted : List (String × S × ℚ)) (st : PartState S)
    (i : ℕ) : PartState S :=
  match sorted.get? i with
  | none => st
  | some g =>
    { bin_result := st.bin_result.set i (st.bin_result.getD i [] ++ [g.1])
      bin_sketches := st.bin_sketches.set i (some g.2.1)
      bin_cardinalities := st.bin_cardinalities.set i g.2.2 }

/-- One iteration of the greedy loop: find the first bin of minimum
cardinality (`min` of an empty list raises), union its sketch with the
genome's (a missing bin sketch file makes the union call fail), move the
merged sketch into place, append the genome name, and re-estimate the
bin's cardinality from the merged sketch. -/
def greedyStepE {S : Type} (cap : Capability S) (st : PartState S)
    (g : String × S × ℚ) : Except String (PartState S) :=
  match pyMinWithIndex st.bin_cardinalities with
  | none => Except.error "ValueError: min() arg is an empty sequence"
  | some (min_bin_index, _) =>
    match st.bin_sketches.getD min_bin_index none with
    | none => Except.error "dashing union: missing bin sketch"
    | some bin_sketch =>
      (cap.union bin_sketch g.2.1).bind fun merged =>
        (cap.card merged).bind fun new_card =>
          Except.ok
            { bin_result := st.bin_result.set min_bin_index
                (st.bin_result.getD min_bin_index [] ++ [g.1])
              bin_sketches := st.bin_sketches.set min_bin_index (some merged)
              bin_cardinalities := st.bin_cardinalities.set min_bin_index new_card }

/-- The greedy loop over the remaining genomes `genome_data[numbins:]`. -/
def greedyLoop {S : Type} (cap : Capability S) :
    PartState S → List (String × S × ℚ) → Except String (PartState S)
  | st, [] => Except.ok st
  | st, g :: rest => (greedyStepE cap st g).bind fun st' => greedyLoop cap st' rest

/-- `greedy_partitioning`, at the level of the full partitioner state:
discover sketches (sorted), return empty state if none, estimate all
cardinalities, sort descending (stably), seed the first
`min(numbins, N)` bins, then run the greedy loop on the rest. -/
def runStateE {S : Type} (cap : Capability S) (numbins : Int)
    (files : List (String × S)) : Except String (PartState S) :=
  let genome_sketches := discoveredOf files
  if genome_sketches.isEmpty then Except.ok ⟨[], [], []⟩
  else
    (estimateAll cap genome_sketches).bind fun genome_data =>
      let sorted := List.insertionSort cardGe genome_data
      let seeded := (List.range (min numbins (genome_data.length : Int)).toNat).foldl
        (seedStep sorted) (initState S numbins)
      greedyLoop cap seeded (pySliceFrom numbins sorted)

/-- `greedy_partitioning(numbins)`: returns `(bin_result, bin_cardinalities)`,
or the propagated error of the first failing capability call. -/
def greedy_partitioningE {S : Type} (cap : Capability S) (numbins : Int)
    (files : List (String × S)) : Except String (List (List String) × List ℚ) :=
  (runStateE cap numbins files).map fun st => (st.bin_result, st.bin_cardinalities)

/-- One line of the output artifact:
`f"Bin {i}: {', '.join(bin_content)}; Cardinality: {bin_card}"`. -/
def binLine (i : ℕ) (members : List String) (c : ℚ) : String :=
  "Bin " ++ toString i ++ ": " ++ String.intercalate ", " members ++
    "; Cardinality: " ++ toString c

/-- The `__main__` block after argument parsing: run the partitioner, then
(only on success) produce the assignment record lines and the completion
marker name.  An error from any capability call propagates and neither
artifact is produced. -/
def mainE {S : Type} (cap : Capability S) (num_bins : Int)
    (files : List (String × S)) (file_name : String) :
    Except String (List String × String) :=
  (greedy_partitioningE cap num_bins files).bind fun r =>
    Except.ok ((r.1.zip r.2).enum.map (fun p => binLine p.1 p.2.1 p.2.2),
      file_name ++ "_binned.done")

/-- The cardinality/summary consistency invariant: each bin's recorded
cardinality is the estimator's value for its current aggregate sketch, and
`0` for a bin whose sketch file does not exist yet. -/
def BinInvE {S : Type} (cap : Capability S) (st : PartState S) : Prop :=
  st.bin_sketches.length = st.bin_cardinalities.length ∧
  ∀ i, i < st.bin_sketches.length →
    match st.bin_sketches.getD i none with
    | none => st.bin_cardinalities.getD i 0 = 0
    | some s => cap.card s = Except.ok (st.bin_cardinalities.getD i 0)

/-- A concrete capability on finite sets of k-mers: estimation is the exact
distinct count (as a rational) and merging is set union, so merging
non-overlapping contents adds the estimates exactly. -/
def capFinset : Capability (Finset ℕ) :=
  Capability.ofPure (fun s => (s.card : ℚ)) (· ∪ ·)

/-- All three parallel bin lists have length `n`. -/
def StLen {S : Type} (st : PartState S) (n : ℕ) : Prop :=
  st.bin_result.length = n ∧ st.bin_sketches.length = n ∧ st.bin_cardinalities.length = n

/-! ### Basic lemmas about the embedding's building blocks -/

theorem bindE_ok {ε α β : Type} (a : α) (f : α → Except ε β) :
    (Except.ok a).bind f = f a := rfl

theorem bindE_error {ε α β : Type} (e : ε) (f : α → Except ε β) :
    (Except.error e : Except ε α).bind f = Except.error e := rfl

theorem getD_of_lt {α : Type} :
    ∀ (l : List α) (i : ℕ) (d : α), ∀ h : i < l.length, l.getD i d = l.get ⟨i, h⟩
  | _ :: _, 0, _, _ => rfl
  | _ :: xs, i + 1, d, h => getD_of_lt xs i d (Nat.lt_of_succ_lt_succ h)

theorem getD_set_self {α : Type} :
    ∀ (l : List α) (i : ℕ) (v d : α), i < l.length → (l.set i v).getD i d = v
  | _ :: _, 0, _, _, _ => rfl
  | _ :: xs, i + 1, v, d, h => getD_set_self xs i v d (Nat.lt_of_succ_lt_succ h)

theorem getD_set_other {α : Type} :
    ∀ (l : List α) (i j : ℕ) (v d : α), i ≠ j → (l.set i v).getD j d = l.getD j d
  | [], _, _, _, _, _ => rfl
  | _ :: _, 0, 0, _, _, hne => absurd rfl hne
  | _ :: _, 0, _ + 1, _, _, _ => rfl
  | _ :: _, _ + 1, 0, _, _, _ => rfl
  | _ :: xs, i + 1, j + 1, v, d, hne =>
    getD_set_other xs i j v d (fun h => hne (by rw [h]))

theorem flatten_set_append {α : Type} :
    ∀ (l : List (List α)) (j : ℕ) (x : α), j < l.length →
      ((l.set j (l.getD j [] ++ [x])).flatten).Perm (x :: l.flatten)
  | b :: bs, 0, x, _ => by
    simp only [List.set_cons_zero, List.getD_cons_zero, List.flatten_cons,
      List.append_assoc, List.singleton_append]
    exact List.perm_middle
  | b :: bs, j + 1, x, h => by
    simp only [List.set_cons_succ, List.getD_cons_succ, List.flatten_cons]
    exact ((flatten_set_append bs j x (Nat.lt_of_succ_lt_succ h)).append_left b).trans
      List.perm_middle

theorem mem_of_mem_set {α : Type} {l : List α} {j : ℕ} {v a : α}
    (h : a ∈ l.set j v) : a ∈ l ∨ a = v := by
  rcases List.mem_or_eq_of_mem_set h with h' | h'
  · exact Or.inl h'
  · exact Or.inr h'

/-! ### The Python string order is a total preorder that kernel-evaluates -/

theorem pyStrLtB_irrefl : ∀ l : List Char, pyStrLtB l l = false
  | [] => rfl
  | _ :: as => by simp [pyStrLtB, pyStrLtB_irrefl as]

theorem pyStrLtB_trans {x y z : List Char} (h1 : pyStrLtB x y = true)
    (h2 : pyStrLtB y z = true) : pyStrLtB x z = true := by
  induction x generalizing y z with
  | nil =>
    cases y with
    | nil => simp [pyStrLtB] at h1
    | cons b bs =>
      cases z with
      | nil => simp [pyStrLtB] at h2
      | cons c cs => rfl
  | cons a as ih =>
    cases y with
    | nil => simp [pyStrLtB] at h1
    | cons b bs =>
      cases z with
      | nil => simp [pyStrLtB] at h2
      | cons c cs =>
        simp only [pyStrLtB] at h1 h2 ⊢
        split_ifs at h1 h2 ⊢ with hab hba hbc hcb hac hca
        all_goals first
          | rfl
          | exact Bool.noConfusion h1
          | exact Bool.noConfusion h2
          | omega
          | (exfalso; omega)
          | exact ih h1 h2

theorem pyStrLtB_antisymm {x y : List Char} (h1 : pyStrLtB x y = false)
    (h2 : pyStrLtB y x = false) : x = y := by
  induction x generalizing y with
  | nil =>
    cases y with
    | nil => rfl
    | cons b bs => simp [pyStrLtB] at h1
  | cons a as ih =>
    cases y with
    | nil => simp [pyStrLtB] at h2
    | cons b bs =>
      simp only [pyStrLtB] at h1 h2
      split_ifs at h1 h2 with hab hba
      have heq : a.toNat = b.toNat := by omega
      have hc : a = b := Char.ext (UInt32.ext heq)
      rw [hc, ih h1 h2]

theorem bool_eq_true_of_ne_false {b : Bool} (h : ¬ b = false) : b = true := by
  cases b
  · exact absurd rfl h
  · rfl

theorem pyStrLe_total (a b : String) : pyStrLe a b ∨ pyStrLe b a := by
  unfold pyStrLe
  by_cases h : pyStrLtB b.data a.data = false
  · exact Or.inl h
  · refine Or.inr ?_
    by_contra h'
    have := pyStrLtB_trans (bool_eq_true_of_ne_false h) (bool_eq_true_of_ne_false h')
    rw [pyStrLtB_irrefl] at this
    exact Bool.false_ne_true this

theorem pyStrLe_trans {a b c : String} (h1 : pyStrLe a b) (h2 : pyStrLe b c) :
    pyStrLe a c := by
  unfold pyStrLe at h1 h2 ⊢
  by_contra h'
  have hca : pyStrLtB c.data a.data = true := bool_eq_true_of_ne_false h'
  cases hbc : pyStrLtB b.data c.data with
  | true =>
    have hba := pyStrLtB_trans hbc hca
    rw [hba] at h1
    exact Bool.noConfusion h1
  | false =>
    have hbceq : b.data = c.data := pyStrLtB_antisymm hbc h2
    rw [← hbceq] at hca
    rw [hca] at h1
    exact Bool.noConfusion h1

instance {S : Type} : IsTotal (String × S) pathLe :=
  ⟨fun a b => pyStrLe_total a.1 b.1⟩

instance {S : Type} : IsTrans (String × S) pathLe :=
  ⟨fun _ _ _ h1 h2 => pyStrLe_trans h1 h2⟩

instance {S : Type} : IsTotal (String × S × ℚ) cardGe :=
  ⟨fun a b => le_total b.2.2 a.2.2⟩

instance {S : Type} : IsTrans (String × S × ℚ) cardGe :=
  ⟨fun _ _ _ h1 h2 => le_trans h2 h1⟩

/-! ### `pyMinWithIndex` computes the first index attaining the minimum -/

theorem pyMinWithIndex_none_iff (l : List ℚ) :
    pyMinWithIndex l = none ↔ l = [] := by
  cases l with
  | nil => simp [pyMinWithIndex]
  | cons x xs =>
    simp only [pyMinWithIndex]
    cases h : pyMinWithIndex xs with
    | none => simp
    | some p => rcases p with ⟨j, v⟩; by_cases hv : v < x <;> simp [hv]

theorem pyMinWithIndex_spec (l : List ℚ) :
    ∀ (j : ℕ) (v : ℚ), pyMinWithIndex l = some (j, v) →
      j < l.length ∧ l.getD j 0 = v ∧ (∀ i, i < l.length → v ≤ l.getD i 0) ∧
        (∀ i, i < j → v < l.getD i 0) := by
  induction l with
  | nil => intro j v h; simp [pyMinWithIndex] at h
  | cons x xs ih =>
    intro j v h
    simp only [pyMinWithIndex] at h
    cases hxs : pyMinWithIndex xs with
    | none =>
      rw [hxs] at h
      have h' : (some (0, x) : Option (ℕ × ℚ)) = some (j, v) := h
      simp only [Option.some.injEq, Prod.mk.injEq] at h'
      obtain ⟨hj, hv⟩ := h'
      subst hj; subst hv
      refine ⟨by simp, rfl, ?_, by omega⟩
      intro i hi
      cases i with
      | zero => simp
      | succ i' =>
        exfalso
        have hnil : xs = [] := (pyMinWithIndex_none_iff xs).mp hxs
        subst hnil
        simp at hi
    | some p =>
      obtain ⟨j', v'⟩ := p
      rw [hxs] at h
      have h' : (if v' < x then some (j' + 1, v') else some (0, x)) = some (j, v) := h
      obtain ⟨hlt, hget, hall, hfirst⟩ := ih j' v' hxs
      by_cases hv : v' < x
      · rw [if_pos hv] at h'
        simp only [Option.some.injEq, Prod.mk.injEq] at h'
        obtain ⟨hj, hvv⟩ := h'
        subst hj; subst hvv
        refine ⟨by simpa using hlt, by simpa using hget, ?_, ?_⟩
        · intro i hi
          cases i with
          | zero => exact le_of_lt hv
          | succ i' => exact hall i' (by simpa using hi)
        · intro i hi
          cases i with
          | zero => exact hv
          | succ i' => exact hfirst i' (by omega)
      · rw [if_neg hv] at h'
        simp only [Option.some.injEq, Prod.mk.injEq] at h'
        obtain ⟨hj, hvv⟩ := h'
        subst hj; subst hvv
        refine ⟨by simp, rfl, ?_, by omega⟩
        intro i hi
        cases i with
        | zero => simp
        | succ i' =>
          have hxle : x ≤ v' := le_of_not_lt hv
          exact le_trans hxle (hall i' (by simpa using hi))

/-! ### The estimation loop -/

theorem ofPure_card {S : Type} (c : S → ℚ) (u : S → S → S) (s : S) :
    (Capability.ofPure c u).card s = Except.ok (c s) := rfl

theorem ofPure_union {S : Type} (c : S → ℚ) (u : S → S → S) (a b : S) :
    (Capability.ofPure c u).union a b = Except.ok (u a b) := rfl

theorem estimateAll_ofPure {S : Type} (c : S → ℚ) (u : S → S → S) :
    ∀ l : List (String × S),
      estimateAll (Capability.ofPure c u) l =
        Except.ok (l.map fun ps => (extract_genome_name ps.1, ps.2, c ps.2))
  | [] => rfl
  | ps :: rest => by
    simp only [estimateAll, ofPure_card, bindE_ok, estimateAll_ofPure c u rest,
      List.map_cons]

theorem estimateAll_ok_spec {S : Type} (cap : Capability S) :
    ∀ (l : List (String × S)) (data : List (String × S × ℚ)),
      estimateAll cap l = Except.ok data →
      data.length = l.length ∧ ∀ g ∈ data, cap.card g.2.1 = Except.ok g.2.2
  | [], data, h => by
    have h' : (Except.ok [] : Except String (List (String × S × ℚ))) = Except.ok data := h
    simp only [Except.ok.injEq] at h'
    subst h'
    exact ⟨rfl, by simp⟩
  | ps :: rest, data, h => by
    simp only [estimateAll] at h
    cases hc : cap.card ps.2 with
    | error e => rw [hc, bindE_error] at h; exact Except.noConfusion h
    | ok cv =>
      rw [hc, bindE_ok] at h
      cases ht : estimateAll cap rest with
      | error e => rw [ht, bindE_error] at h; exact Except.noConfusion h
      | ok tail =>
        rw [ht, bindE_ok] at h
        simp only [Except.ok.injEq] at h
        subst h
        obtain ⟨hlen, hmem⟩ := estimateAll_ok_spec cap rest tail ht
        refine ⟨by simp [hlen], ?_⟩
        intro g hg
        rcases List.mem_cons.mp hg with hg' | hg'
        · subst hg'; exact hc
        · exact hmem g hg'

theorem estimateAll_of_card_ok {S : Type} (cap : Capability S) (c : S → ℚ)
    (hcap : ∀ s, cap.card s = Except.ok (c s)) :
    ∀ l : List (String × S),
      estimateAll cap l =
        Except.ok (l.map fun ps => (extract_genome_name ps.1, ps.2, c ps.2))
  | [] => rfl
  | ps :: rest => by
    simp only [estimateAll, hcap, bindE_ok, estimateAll_of_card_ok cap c hcap rest,
      List.map_cons]

theorem estimateAll_error_of_mem {S : Type} (cap : Capability S) :
    ∀ l : List (String × S), (∃ ps ∈ l, ∃ e, cap.card ps.2 = Except.error e) →
      ∃ e', estimateAll cap l = Except.error e'
  | [], h => by simp at h
  | ps :: rest, h => by
    simp only [estimateAll]
    cases hc : cap.card ps.2 with
    | error e => exact ⟨e, rfl⟩
    | ok cv =>
      rcases h with ⟨q, hq, e, he⟩
      rcases List.mem_cons.mp hq with hq' | hq'
      · subst hq'; rw [hc] at he; exact Except.noConfusion he
      · obtain ⟨e', he'⟩ := estimateAll_error_of_mem cap rest ⟨q, hq', e, he⟩
        exact ⟨e', by rw [bindE_ok, he', bindE_error]⟩

/-! ### Python slicing -/

theorem pySliceFrom_of_nonneg {α : Type} (n : Int) (l : List α) (h : 0 ≤ n) :
    pySliceFrom n l = l.drop n.toNat := by
  simp [pySliceFrom, h]

theorem pySliceFrom_length_self {α : Type} (l : List α) :
    pySliceFrom (l.length : Int) l = [] := by
  rw [pySliceFrom_of_nonneg _ _ (by omega)]
  simp

theorem pySliceFrom_ne_nil {α : Type} (n : Int) (l : List α) (hn : n ≤ 0)
    (hl : l ≠ []) : pySliceFrom n l ≠ [] := by
  have hlen : 0 < l.length := List.length_pos.mpr hl
  unfold pySliceFrom
  by_cases h0 : 0 ≤ n
  · have hz : n = 0 := le_antisymm hn h0
    subst hz
    simpa [hl] using hl
  · rw [if_neg h0]
    intro hc
    have hle := List.drop_eq_nil_iff_le.mp hc
    omega

/-! ### Characterizing the seed loop -/

theorem set_append_cons {α : Type} :
    ∀ (A : List α) (b : α) (B : List α) (v : α),
      (A ++ b :: B).set A.length v = A ++ v :: B
  | [], _, _, _ => rfl
  | a :: A', b, B, v => by
    simpa using set_append_cons A' b B v

theorem getD_append_cons {α : Type} :
    ∀ (A : List α) (b : α) (B : List α) (d : α), (A ++ b :: B).getD A.length d = b
  | [], _, _, _ => rfl
  | _ :: A', b, B, d => getD_append_cons A' b B d

theorem seed_foldl_char {S : Type} (sorted : List (String × S × ℚ)) :
    ∀ (k n : ℕ), k ≤ n → k ≤ sorted.length →
      (List.range k).foldl (seedStep sorted)
          ⟨List.replicate n [], List.replicate n none, List.replicate n 0⟩ =
        ⟨(sorted.take k).map (fun g => [g.1]) ++ List.replicate (n - k) [],
         (sorted.take k).map (fun g => some g.2.1) ++ List.replicate (n - k) none,
         (sorted.take k).map (fun g => g.2.2) ++ List.replicate (n - k) 0⟩ := by
  intro k
  induction k with
  | zero => intro n _ _; simp
  | succ k ih =>
    intro n hkn hks
    have hkn' : k ≤ n := Nat.le_of_succ_le hkn
    have hks' : k < sorted.length := Nat.lt_of_succ_le hks
    have hrep : ∀ {β : Type} (x : β), List.replicate (n - k) x = x :: List.replicate (n - (k + 1)) x := by
      intro β x
      have : n - k = (n - (k + 1)) + 1 := by omega
      rw [this, List.replicate_succ]
    have hlen : ∀ {β : Type} (f : (String × S × ℚ) → β), ((sorted.take k).map f).length = k := by
      intro β f
      simp [List.length_take, Nat.min_eq_left (le_of_lt hks')]
    have hgetE : sorted[k]? = some (sorted.get ⟨k, hks'⟩) := by
      rw [List.getElem?_eq_getElem hks', List.get_eq_getElem]
    have hget : sorted.get? k = some (sorted.get ⟨k, hks'⟩) := by
      rw [List.get?_eq_getElem?, hgetE]
    have htake : ∀ {β : Type} (f : (String × S × ℚ) → β),
        (sorted.take (k + 1)).map f = (sorted.take k).map f ++ [f (sorted.get ⟨k, hks'⟩)] := by
      intro β f
      rw [List.take_succ, hgetE, List.map_append]
      rfl
    rw [List.range_succ, List.foldl_append, List.foldl_cons, List.foldl_nil,
      ih n hkn' (le_of_lt hks')]
    unfold seedStep
    rw [hget]
    have hchg : ∀ {β : Type} (f : (String × S × ℚ) → β) (x v : β),
        ((sorted.take k).map f ++ List.replicate (n - k) x).set k v =
          (sorted.take k).map f ++ v :: List.replicate (n - (k + 1)) x := by
      intro β f x v
      rw [hrep]
      have := set_append_cons ((sorted.take k).map f) x (List.replicate (n - (k + 1)) x) v
      rwa [hlen] at this
    have hgd : ((sorted.take k).map (fun g : String × S × ℚ => ([g.1] : List String)) ++
        List.replicate (n - k) []).getD k [] = [] := by
      rw [hrep]
      have := getD_append_cons ((sorted.take k).map (fun g : String × S × ℚ => ([g.1] : List String)))
        [] (List.replicate (n - (k + 1)) []) []
      rwa [hlen] at this
    simp only [hgd, hchg, htake, List.nil_append, List.append_assoc, List.singleton_append]

/-! ### Flattening the seeded bins -/

theorem flatten_singletons {α β : Type} (f : α → β) :
    ∀ l : List α, ((l.map fun g => [f g]).flatten) = l.map f
  | [] => rfl
  | a :: rest => by simp [flatten_singletons f rest]

theorem flatten_replicate_nil {α : Type} :
    ∀ m : ℕ, (List.replicate m ([] : List α)).flatten = []
  | 0 => rfl
  | m + 1 => by simp [List.replicate_succ, flatten_replicate_nil m]

/-! ### The greedy step and loop -/

theorem greedyStepE_ok_mk {S : Type} (cap : Capability S) (st : PartState S)
    (g : String × S × ℚ) {j : ℕ} {v : ℚ} {sk merged : S} {newc : ℚ}
    (hm : pyMinWithIndex st.bin_cardinalities = some (j, v))
    (hsk : st.bin_sketches.getD j none = some sk)
    (hu : cap.union sk g.2.1 = Except.ok merged)
    (hc : cap.card merged = Except.ok newc) :
    greedyStepE cap st g = Except.ok
      ⟨st.bin_result.set j (st.bin_result.getD j [] ++ [g.1]),
       st.bin_sketches.set j (some merged),
       st.bin_cardinalities.set j newc⟩ := by
  unfold greedyStepE
  rw [hm]
  dsimp only
  rw [hsk]
  dsimp only
  rw [hu, bindE_ok, hc, bindE_ok]

theorem greedyStepE_ok_elim {S : Type} {cap : Capability S} {st st' : PartState S}
    {g : String × S × ℚ} (h : greedyStepE cap st g = Except.ok st') :
    ∃ j v sk merged newc,
      pyMinWithIndex st.bin_cardinalities = some (j, v) ∧
      st.bin_sketches.getD j none = some sk ∧
      cap.union sk g.2.1 = Except.ok merged ∧
      cap.card merged = Except.ok newc ∧
      st' = ⟨st.bin_result.set j (st.bin_result.getD j [] ++ [g.1]),
             st.bin_sketches.set j (some merged),
             st.bin_cardinalities.set j newc⟩ := by
  unfold greedyStepE at h
  split at h
  · exact Except.noConfusion h
  · next j v hm =>
    split at h
    · exact Except.noConfusion h
    · next sk hsk =>
      cases hu : cap.union sk g.2.1 with
      | error e => rw [hu, bindE_error] at h; exact Except.noConfusion h
      | ok merged =>
        rw [hu, bindE_ok] at h
        cases hc : cap.card merged with
        | error e => rw [hc, bindE_error] at h; exact Except.noConfusion h
        | ok newc =>
          rw [hc, bindE_ok] at h
          simp only [Except.ok.injEq] at h
          exact ⟨j, v, sk, merged, newc, hm, hsk, hu, hc, h.symm⟩

theorem greedyLoop_cons_error {S : Type} (cap : Capability S) (st : PartState S)
    (g : String × S × ℚ) (rest : List (String × S × ℚ)) (e : String)
    (h : greedyStepE cap st g = Except.error e) :
    greedyLoop cap st (g :: rest) = Except.error e := by
  simp only [greedyLoop, h, bindE_error]

theorem greedyLoop_ok_of_pure {S : Type} (c : S → ℚ) (u : S → S → S) (n : ℕ) (hn : 0 < n) :
    ∀ (l : List (String × S × ℚ)) (st : PartState S),
      StLen st n → (∀ o ∈ st.bin_sketches, o ≠ none) →
      ∃ st', greedyLoop (Capability.ofPure c u) st l = Except.ok st' ∧
        StLen st' n ∧ (∀ o ∈ st'.bin_sketches, o ≠ none) ∧
        st'.bin_result.flatten.Perm (st.bin_result.flatten ++ l.map (fun g => g.1)) := by
  intro l
  induction l with
  | nil => intro st hlen hsk; exact ⟨st, rfl, hlen, hsk, by simp⟩
  | cons g rest ih =>
    intro st hlen hsk
    obtain ⟨hr, hs, hc⟩ := hlen
    have hcne : st.bin_cardinalities ≠ [] := by
      intro h0; rw [h0] at hc; simp at hc; omega
    obtain ⟨p, hm⟩ : ∃ p, pyMinWithIndex st.bin_cardinalities = some p := by
      cases hp : pyMinWithIndex st.bin_cardinalities with
      | none => exact absurd ((pyMinWithIndex_none_iff _).mp hp) hcne
      | some p => exact ⟨p, rfl⟩
    obtain ⟨j, v⟩ := p
    obtain ⟨hjlt, _, _, _⟩ := pyMinWithIndex_spec _ j v hm
    have hjs : j < st.bin_sketches.length := by omega
    have hsome : st.bin_sketches.getD j none ≠ none := by
      rw [getD_of_lt _ j none hjs]
      exact hsk _ (List.get_mem _ _ _)
    obtain ⟨sk, hskj⟩ : ∃ sk, st.bin_sketches.getD j none = some sk := by
      cases hx : st.bin_sketches.getD j none with
      | none => exact absurd hx hsome
      | some sk => exact ⟨sk, rfl⟩
    have hstep := greedyStepE_ok_mk (Capability.ofPure c u) st g hm hskj
      (ofPure_union c u sk g.2.1) (ofPure_card c u (u sk g.2.1))
    have hlen1 : StLen (⟨st.bin_result.set j (st.bin_result.getD j [] ++ [g.1]),
        st.bin_sketches.set j (some (u sk g.2.1)),
        st.bin_cardinalities.set j (c (u sk g.2.1))⟩ : PartState S) n :=
      ⟨by simpa using hr, by simpa using hs, by simpa using hc⟩
    have hsk1 : ∀ o ∈ (st.bin_sketches.set j (some (u sk g.2.1))), o ≠ none := by
      intro o ho
      rcases mem_of_mem_set ho with h | h
      · exact hsk o h
      · rw [h]; exact fun hx => Option.noConfusion hx
    obtain ⟨st', hloop, hlen', hsk', hperm⟩ := ih _ hlen1 hsk1
    refine ⟨st', ?_, hlen', hsk', ?_⟩
    · simp only [greedyLoop, hstep, bindE_ok]
      exact hloop
    · have hj2 : j < st.bin_result.length := by omega
      have h1 := flatten_set_append st.bin_result j g.1 hj2
      refine hperm.trans ?_
      refine (h1.append_right (rest.map fun g => g.1)).trans ?_
      simp only [List.cons_append, List.map_cons]
      exact List.perm_middle.symm

/-! ### Characterizing a successful pure run -/

theorem discoveredOf_perm {S : Type} (files : List (String × S)) :
    (discoveredOf files).Perm files :=
  List.perm_insertionSort _ _

theorem discoveredOf_ne_nil {S : Type} {files : List (String × S)} (hne : files ≠ []) :
    discoveredOf files ≠ [] := by
  intro h0
  have hp := discoveredOf_perm files
  rw [h0] at hp
  exact hne hp.symm.eq_nil

theorem discoveredOf_isEmpty_false {S : Type} {files : List (String × S)}
    (hne : files ≠ []) : (discoveredOf files).isEmpty = false := by
  cases hd : discoveredOf files with
  | nil => exact absurd hd (discoveredOf_ne_nil hne)
  | cons a l => rfl

theorem sortedDataOf_perm {S : Type} (c : S → ℚ) (files : List (String × S)) :
    (sortedDataOf c files).Perm (genomeDataOf c files) :=
  List.perm_insertionSort _ _

theorem sorted_names_perm {S : Type} (c : S → ℚ) (files : List (String × S)) :
    ((sortedDataOf c files).map (fun g => g.1)).Perm
      (files.map fun f => extract_genome_name f.1) := by
  have h2 := (sortedDataOf_perm c files).map (fun g => g.1)
  refine h2.trans ?_
  unfold genomeDataOf
  rw [List.map_map]
  exact (discoveredOf_perm files).map _

theorem runStateE_pure_spec {S : Type} (c : S → ℚ) (u : S → S → S) (numbins : Int)
    (files : List (String × S)) (h1 : 1 ≤ numbins) (hne : files ≠ []) :
    ∃ st', runStateE (Capability.ofPure c u) numbins files = Except.ok st' ∧
      StLen st' numbins.toNat ∧
      st'.bin_result.flatten.Perm (files.map fun f => extract_genome_name f.1) := by
  have hemp := discoveredOf_isEmpty_false hne
  have hsp := sortedDataOf_perm c files
  have hNg : (genomeDataOf c files).length = (sortedDataOf c files).length :=
    hsp.length_eq.symm
  have hrun : runStateE (Capability.ofPure c u) numbins files =
      greedyLoop (Capability.ofPure c u)
        ((List.range (min numbins ((genomeDataOf c files).length : Int)).toNat).foldl
          (seedStep (sortedDataOf c files)) (initState S numbins))
        (pySliceFrom numbins (sortedDataOf c files)) := by
    simp only [runStateE, hemp, Bool.false_eq_true, if_false, estimateAll_ofPure, bindE_ok]
    rfl
  have hk1 : (min numbins ((genomeDataOf c files).length : Int)).toNat ≤ numbins.toNat := by
    omega
  have hk2 : (min numbins ((genomeDataOf c files).length : Int)).toNat ≤
      (sortedDataOf c files).length := by
    omega
  have hseed := seed_foldl_char (sortedDataOf c files)
    (min numbins ((genomeDataOf c files).length : Int)).toNat numbins.toNat hk1 hk2
  have hinit : initState S numbins =
      (⟨List.replicate numbins.toNat [], List.replicate numbins.toNat none,
        List.replicate numbins.toNat 0⟩ : PartState S) := rfl
  rw [hinit, hseed] at hrun
  have hslice : pySliceFrom numbins (sortedDataOf c files) =
      (sortedDataOf c files).drop numbins.toNat :=
    pySliceFrom_of_nonneg _ _ (by omega)
  by_cases hcase : (sortedDataOf c files).length ≤ numbins.toNat
  · -- every genome is seeded; the greedy loop runs over the empty slice
    have hkN : (min numbins ((genomeDataOf c files).length : Int)).toNat =
        (sortedDataOf c files).length := by omega
    have hdrop : (sortedDataOf c files).drop numbins.toNat = [] := by
      rw [List.drop_eq_nil_iff_le]
      exact hcase
    rw [hslice, hdrop] at hrun
    rw [hkN, List.take_length] at hrun
    refine ⟨_, hrun, ?_, ?_⟩
    · refine ⟨?_, ?_, ?_⟩ <;>
        simp only [List.length_append, List.length_map, List.length_replicate] <;> omega
    · simp only [List.flatten_append, flatten_singletons, flatten_replicate_nil,
        List.append_nil]
      exact sorted_names_perm c files
  · -- all bins are seeded; run the greedy loop over the remaining genomes
    push_neg at hcase
    have hkN : (min numbins ((genomeDataOf c files).length : Int)).toNat = numbins.toNat := by
      omega
    rw [hkN] at hrun
    have hz : numbins.toNat - numbins.toNat = 0 := by omega
    rw [hz] at hrun
    simp only [List.replicate_zero, List.append_nil] at hrun
    have hlentake : ((sortedDataOf c files).take numbins.toNat).length = numbins.toNat :=
      List.length_take_of_le (le_of_lt hcase)
    have hstl : StLen
        (⟨((sortedDataOf c files).take numbins.toNat).map (fun g => [g.1]),
          ((sortedDataOf c files).take numbins.toNat).map (fun g => some g.2.1),
          ((sortedDataOf c files).take numbins.toNat).map (fun g => g.2.2)⟩ : PartState S)
        numbins.toNat := by
      refine ⟨?_, ?_, ?_⟩ <;> simp only [List.length_map, hlentake]
    have hskh : ∀ o ∈ ((sortedDataOf c files).take numbins.toNat).map
        (fun g => some g.2.1), o ≠ none := by
      intro o ho
      obtain ⟨g, _, hg⟩ := List.mem_map.mp ho
      rw [← hg]
      exact fun hx => Option.noConfusion hx
    obtain ⟨st', hloop, hlen', _, hperm⟩ := greedyLoop_ok_of_pure c u numbins.toNat
      (by omega) ((sortedDataOf c files).drop numbins.toNat) _ hstl hskh
    rw [hslice] at hrun
    rw [hloop] at hrun
    refine ⟨st', hrun, hlen', ?_⟩
    refine hperm.trans ?_
    simp only [flatten_singletons]
    rw [← List.map_append, List.take_append_drop]
    exact sorted_names_perm c files

theorem genomeDataOf_length {S : Type} (c : S → ℚ) (files : List (String × S)) :
    (genomeDataOf c files).length = files.length := by
  unfold genomeDataOf
  rw [List.length_map, (discoveredOf_perm files).length_eq]

theorem sortedDataOf_length {S : Type} (c : S → ℚ) (files : List (String × S)) :
    (sortedDataOf c files).length = files.length := by
  rw [(sortedDataOf_perm c files).length_eq, genomeDataOf_length]

theorem pySliceFrom_nil {α : Type} (n : Int) : pySliceFrom n ([] : List α) = [] := by
  unfold pySliceFrom
  by_cases h : 0 ≤ n <;> simp [h]

/-- A greedy step with empty `bin_cardinalities` raises Python's `min()` error. -/
theorem greedyStepE_error_empty {S : Type} (cap : Capability S) (st : PartState S)
    (g : String × S × ℚ) (h : st.bin_cardinalities = []) :
    greedyStepE cap st g = Except.error "ValueError: min() arg is an empty sequence" := by
  unfold greedyStepE
  rw [h]
  rfl

theorem greedyStepE_error_of_union_err {S : Type} (c : S → ℚ) (e : String)
    (st : PartState S) (g : String × S × ℚ) :
    ∃ e', greedyStepE ⟨fun s => Except.ok (c s), fun _ _ => Except.error e⟩ st g =
      Except.error e' := by
  unfold greedyStepE
  cases hm : pyMinWithIndex st.bin_cardinalities with
  | none => exact ⟨_, rfl⟩
  | some p =>
    obtain ⟨j, v⟩ := p
    dsimp only
    cases hsk : st.bin_sketches.getD j none with
    | none => exact ⟨_, rfl⟩
    | some sk => exact ⟨e, rfl⟩

/-- `runStateE` when every discovered genome is seeded (`numbins = N ≥ 1`):
the greedy loop has nothing to do and the result is the seeded state. -/
theorem runStateE_pure_eq_seeded {S : Type} (c : S → ℚ) (u : S → S → S) (numbins : Int)
    (files : List (String × S)) (hne : files ≠ []) (hN : numbins = (files.length : Int)) :
    runStateE (Capability.ofPure c u) numbins files = Except.ok
      ⟨(sortedDataOf c files).map fun g => [g.1],
       (sortedDataOf c files).map fun g => some g.2.1,
       (sortedDataOf c files).map fun g => g.2.2⟩ := by
  have hemp := discoveredOf_isEmpty_false hne
  have hgl : (genomeDataOf c files).length = files.length := genomeDataOf_length c files
  have hsl : (sortedDataOf c files).length = files.length := sortedDataOf_length c files
  have hrun : runStateE (Capability.ofPure c u) numbins files =
      greedyLoop (Capability.ofPure c u)
        ((List.range (min numbins ((genomeDataOf c files).length : Int)).toNat).foldl
          (seedStep (sortedDataOf c files)) (initState S numbins))
        (pySliceFrom numbins (sortedDataOf c files)) := by
    simp only [runStateE, hemp, Bool.false_eq_true, if_false, estimateAll_ofPure, bindE_ok]
    rfl
  have hk : (min numbins ((genomeDataOf c files).length : Int)).toNat = numbins.toNat := by
    omega
  have hkn : numbins.toNat = files.length := by omega
  have hseed := seed_foldl_char (sortedDataOf c files) numbins.toNat numbins.toNat le_rfl
    (by omega)
  have hinit : initState S numbins =
      (⟨List.replicate numbins.toNat [], List.replicate numbins.toNat none,
        List.replicate numbins.toNat 0⟩ : PartState S) := rfl
  have hslice : pySliceFrom numbins (sortedDataOf c files) = [] := by
    rw [pySliceFrom_of_nonneg _ _ (by omega), List.drop_eq_nil_iff_le]
    omega
  rw [hrun, hk, hinit, hseed, hslice]
  have htk : (sortedDataOf c files).take numbins.toNat = sortedDataOf c files := by
    rw [List.take_of_length_le (by omega)]
  rw [htk]
  simp only [Nat.sub_self, List.replicate_zero, List.append_nil]
  rfl

/-- The docstring's example: the genome name is the first dot-token of the
basename that is not a sketch-parameter token. -/
theorem extract_genome_name_docstring_example :
    extract_genome_name "path/to/file/SAMEA897824.fa.gz.w.31.spacing.10.hll"
      = "SAMEA897824" := by decide

/-! ### The cardinality/summary consistency invariant -/

theorem getD_append_lt {α : Type} :
    ∀ (A B : List α) (i : ℕ) (d : α), i < A.length → (A ++ B).getD i d = A.getD i d
  | [], _, _, _, h => absurd h (by simp)
  | _ :: _, B, 0, d, _ => rfl
  | _ :: A', B, i + 1, d, h => getD_append_lt A' B i d (Nat.lt_of_succ_lt_succ h)

theorem getD_append_ge {α : Type} :
    ∀ (A B : List α) (i : ℕ) (d : α), A.length ≤ i →
      (A ++ B).getD i d = B.getD (i - A.length) d
  | [], _, _, _, _ => by simp
  | _ :: _, _, 0, _, h => by simp at h
  | _ :: A', B, i + 1, d, h => by
    have := getD_append_ge A' B i d (Nat.le_of_succ_le_succ h)
    simpa [Nat.succ_sub_succ] using this

theorem getD_replicate_of_lt {α : Type} :
    ∀ (m i : ℕ) (x d : α), i < m → (List.replicate m x).getD i d = x
  | m + 1, 0, _, _, _ => rfl
  | m + 1, i + 1, x, d, h => getD_replicate_of_lt m i x d (Nat.lt_of_succ_lt_succ h)
  | 0, _, _, _, h => absurd h (by simp)

theorem getD_map {α β : Type} (f : α → β) :
    ∀ (l : List α) (i : ℕ) (d : β) (h : i < l.length),
      (l.map f).getD i d = f (l.get ⟨i, h⟩)
  | _ :: _, 0, _, _ => rfl
  | _ :: l', i + 1, d, h => getD_map f l' i d (Nat.lt_of_succ_lt_succ h)

theorem greedyStepE_preserves_inv {S : Type} (cap : Capability S) (st st' : PartState S)
    (g : String × S × ℚ) (hinv : BinInvE cap st)
    (h : greedyStepE cap st g = Except.ok st') : BinInvE cap st' := by
  obtain ⟨j, v, sk, merged, newc, hm, hsk, hu, hc, hst⟩ := greedyStepE_ok_elim h
  obtain ⟨hlen, hmatch⟩ := hinv
  obtain ⟨hjlt, -, -, -⟩ := pyMinWithIndex_spec _ j v hm
  have hjs : j < st.bin_sketches.length := by omega
  subst hst
  refine ⟨by simp [hlen], ?_⟩
  intro i hi
  simp only [List.length_set] at hi
  by_cases hij : i = j
  · subst hij
    rw [getD_set_self _ _ _ _ hjs, getD_set_self _ _ _ _ (by omega)]
    exact hc
  · rw [getD_set_other _ _ _ _ _ (fun hx => hij hx.symm),
      getD_set_other _ _ _ _ _ (fun hx => hij hx.symm)]
    exact hmatch i hi

theorem greedyLoop_inv {S : Type} (cap : Capability S) :
    ∀ (l : List (String × S × ℚ)) (st st' : PartState S), BinInvE cap st →
      greedyLoop cap st l = Except.ok st' → BinInvE cap st'
  | [], st, st', hinv, h => by
    have h' : (Except.ok st : Except String (PartState S)) = Except.ok st' := h
    simp only [Except.ok.injEq] at h'
    rwa [← h']
  | g :: rest, st, st', hinv, h => by
    simp only [greedyLoop] at h
    cases hs : greedyStepE cap st g with
    | error e => rw [hs, bindE_error] at h; exact Except.noConfusion h
    | ok st1 =>
      rw [hs, bindE_ok] at h
      exact greedyLoop_inv cap rest st1 st'
        (greedyStepE_preserves_inv cap st st1 g hinv hs) h

theorem seeded_inv {S : Type} (cap : Capability S) (sorted : List (String × S × ℚ))
    (n k : ℕ) (hkn : k ≤ n) (hks : k ≤ sorted.length)
    (hcards : ∀ g ∈ sorted, cap.card g.2.1 = Except.ok g.2.2) :
    BinInvE cap ((List.range k).foldl (seedStep sorted)
      ⟨List.replicate n [], List.replicate n none, List.replicate n 0⟩) := by
  rw [seed_foldl_char sorted k n hkn hks]
  have htl : (sorted.take k).length = k := List.length_take_of_le hks
  refine ⟨by simp [htl], ?_⟩
  intro i hi
  simp only [List.length_append, List.length_map, htl, List.length_replicate] at hi
  by_cases hik : i < k
  · rw [getD_append_lt _ _ _ _ (by simp [htl]; omega),
      getD_append_lt _ _ _ _ (by simp [htl]; omega)]
    have hi' : i < (sorted.take k).length := by omega
    rw [getD_map _ _ _ _ hi', getD_map _ _ _ _ hi']
    have hmem : (sorted.take k).get ⟨i, hi'⟩ ∈ sorted :=
      List.take_subset k sorted (List.get_mem _ _ _)
    exact hcards _ hmem
  · rw [getD_append_ge _ _ _ _ (by simp [htl]; omega),
      getD_append_ge _ _ _ _ (by simp [htl]; omega)]
    simp only [List.length_map, htl]
    rw [getD_replicate_of_lt _ _ _ _ (by omega), getD_replicate_of_lt _ _ _ _ (by omega)]

theorem runStateE_ok_inv {S : Type} (cap : Capability S) (numbins : Int)
    (files : List (String × S)) (st' : PartState S)
    (h : runStateE cap numbins files = Except.ok st') : BinInvE cap st' := by
  unfold runStateE at h
  by_cases hemp : (discoveredOf files).isEmpty = true
  · rw [if_pos hemp] at h
    have h' : (Except.ok (⟨[], [], []⟩ : PartState S) :
        Except String (PartState S)) = Except.ok st' := h
    simp only [Except.ok.injEq] at h'
    rw [← h']
    exact ⟨rfl, fun i hi => absurd hi (by simp)⟩
  · rw [if_neg hemp] at h
    cases hest : estimateAll cap (discoveredOf files) with
    | error e => rw [hest, bindE_error] at h; exact Except.noConfusion h
    | ok data =>
      rw [hest, bindE_ok] at h
      dsimp only at h
      obtain ⟨hlen, hsp⟩ := estimateAll_ok_spec cap _ _ hest
      have hslen : (List.insertionSort cardGe data).length = data.length :=
        (List.perm_insertionSort cardGe data).length_eq
      have hcards : ∀ g ∈ List.insertionSort cardGe data,
          cap.card g.2.1 = Except.ok g.2.2 := by
        intro g hg
        exact hsp g ((List.perm_insertionSort cardGe data).subset hg)
      have hseed := seeded_inv cap (List.insertionSort cardGe data)
        numbins.toNat (min numbins (data.length : Int)).toNat
        (by omega) (by omega) hcards
      exact greedyLoop_inv cap _ _ _ hseed h

/-! ### Determinism: sorted discovery order and stable card sort -/

theorem pyStrLtB_of_le_of_ne {a b : String} (h1 : pyStrLe a b) (h2 : a ≠ b) :
    pyStrLtB a.data b.data = true := by
  cases hx : pyStrLtB a.data b.data with
  | true => rfl
  | false =>
    have hd := pyStrLtB_antisymm hx h1
    exact absurd (by cases a; cases b; exact congrArg String.mk hd) h2

theorem strictPath_of_sorted_nodup {S : Type} {l : List (String × S)}
    (hs : List.Sorted pathLe l) (hnd : (l.map Prod.fst).Nodup) :
    l.Pairwise (fun a b : String × S => pyStrLtB a.1.data b.1.data = true) := by
  have hnd' : l.Pairwise (fun a b => a.1 ≠ b.1) := List.pairwise_map.mp hnd
  exact (hs.and hnd').imp (fun hab => pyStrLtB_of_le_of_ne hab.1 hab.2)

theorem eq_of_perm_of_strict {α : Type} (key : α → List Char) :
    ∀ (l1 l2 : List α), l1.Perm l2 →
      l1.Pairwise (fun a b => pyStrLtB (key a) (key b) = true) →
      l2.Pairwise (fun a b => pyStrLtB (key a) (key b) = true) → l1 = l2
  | [], l2, hp, _, _ => hp.nil_eq
  | a :: t1, l2, hp, h1, h2 => by
    cases l2 with
    | nil => exact absurd hp.symm.nil_eq (by simp)
    | cons b t2 =>
      by_cases hab : a = b
      · subst hab
        have hp' := hp.cons_inv
        rw [eq_of_perm_of_strict key t1 t2 hp' (List.pairwise_cons.mp h1).2
          (List.pairwise_cons.mp h2).2]
      · exfalso
        have ha2 : a ∈ t2 := by
          have hm : a ∈ b :: t2 := hp.subset (List.mem_cons_self a t1)
          rcases List.mem_cons.mp hm with h | h
          · exact absurd h hab
          · exact h
        have hb1 : b ∈ t1 := by
          have hm : b ∈ a :: t1 := hp.symm.subset (List.mem_cons_self b t2)
          rcases List.mem_cons.mp hm with h | h
          · exact absurd h.symm hab
          · exact h
        have hlt1 : pyStrLtB (key a) (key b) = true := (List.pairwise_cons.mp h1).1 b hb1
        have hlt2 : pyStrLtB (key b) (key a) = true := (List.pairwise_cons.mp h2).1 a ha2
        have hx := pyStrLtB_trans hlt1 hlt2
        rw [pyStrLtB_irrefl] at hx
        exact Bool.noConfusion hx

theorem discoveredOf_eq_of_perm {S : Type} {files1 files2 : List (String × S)}
    (hp : files1.Perm files2) (hnd : (files1.map Prod.fst).Nodup) :
    discoveredOf files1 = discoveredOf files2 := by
  have hs1 : List.Sorted pathLe (discoveredOf files1) :=
    List.sorted_insertionSort pathLe files1
  have hs2 : List.Sorted pathLe (discoveredOf files2) :=
    List.sorted_insertionSort pathLe files2
  have hpp : (discoveredOf files1).Perm (discoveredOf files2) :=
    (discoveredOf_perm files1).trans (hp.trans (discoveredOf_perm files2).symm)
  have hnd1 : ((discoveredOf files1).map Prod.fst).Nodup :=
    (((discoveredOf_perm files1).map Prod.fst).nodup_iff).mpr hnd
  have hnd2 : ((discoveredOf files2).map Prod.fst).Nodup :=
    ((hpp.map Prod.fst).nodup_iff).mp hnd1
  exact eq_of_perm_of_strict (fun ps => ps.1.data) _ _ hpp
    (strictPath_of_sorted_nodup hs1 hnd1) (strictPath_of_sorted_nodup hs2 hnd2)

theorem filter_orderedInsert_card {S : Type} (q : ℚ) (a : String × S × ℚ)
    (l : List (String × S × ℚ)) :
    (List.orderedInsert cardGe a l).filter (fun g => decide (g.2.2 = q)) =
      if a.2.2 = q
      then a :: l.filter (fun g => decide (g.2.2 = q))
      else l.filter (fun g => decide (g.2.2 = q)) := by
  induction l with
  | nil =>
    by_cases h : a.2.2 = q <;> simp [List.orderedInsert, List.filter, h]
  | cons b t ih =>
    by_cases hr : cardGe a b
    · rw [List.orderedInsert_of_le cardGe t hr]
      by_cases ha : a.2.2 = q <;> by_cases hb : b.2.2 = q <;>
        simp [List.filter_cons, ha, hb]
    · have hoi : List.orderedInsert cardGe a (b :: t) =
          b :: List.orderedInsert cardGe a t := by
        simp [List.orderedInsert, hr]
      rw [hoi]
      have hba : a.2.2 < b.2.2 := not_le.mp hr
      by_cases ha : a.2.2 = q
      · have hbq : ¬ b.2.2 = q := fun hq => hba.ne' (hq.trans ha.symm)
        simp [List.filter_cons, ha, hbq, ih]
      · simp [List.filter_cons, ha, ih]

theorem filter_insertionSort_card {S : Type} (q : ℚ) :
    ∀ l : List (String × S × ℚ),
      (List.insertionSort cardGe l).filter (fun g => decide (g.2.2 = q)) =
        l.filter (fun g => decide (g.2.2 = q))
  | [] => rfl
  | a :: t => by
    simp only [List.insertionSort]
    rw [filter_orderedInsert_card]
    by_cases h : a.2.2 = q <;>
      simp [List.filter_cons, h, filter_insertionSort_card q t]

/-! ## Claims -/

/-- C1 counterexample: with `numbins = 2` and an empty input set, the code
returns `([], [])` — zero bins — because the early-return guard fires before
the bins are created, so the result does not have 2 empty bins as claimed. -/
theorem C1_cex :
    greedy_partitioningE pureCapQ 2 [] = Except.ok ([], []) ∧
      ([] : List (List String)).length ≠ 2 :=
  ⟨rfl, by decide⟩

/-- C1 amended: for every `numbins` (in particular every `numbins ≥ 1`),
`greedy_partitioning` on an empty input set returns two empty lists — zero
bins, each list empty — rather than `numbins` empty bins. -/
theorem C1_empty_input {S : Type} (cap : Capability S) (numbins : Int) :
    greedy_partitioningE cap numbins [] = Except.ok ([], []) := rfl

/-- C5: when the number of discovered items equals `numbins`, the result is
exactly the seeded state: each bin holds one item (in sorted order), each
bin's cardinality is that item's own cardinality, and the run never calls
the merge capability (so the result is the same for any two merge
functions `u1`, `u2`). -/
theorem C5_seed_exact {S : Type} (c : S → ℚ) (u1 u2 : S → S → S) (numbins : Int)
    (files : List (String × S)) (h : numbins = (files.length : Int)) :
    greedy_partitioningE (Capability.ofPure c u1) numbins files =
      greedy_partitioningE (Capability.ofPure c u2) numbins files ∧
    greedy_partitioningE (Capability.ofPure c u1) numbins files =
      Except.ok ((sortedDataOf c files).map fun g => [g.1],
                 (sortedDataOf c files).map fun g => g.2.2) ∧
    ∀ b ∈ (sortedDataOf c files).map fun g => ([g.1] : List String), b.length = 1 := by
  by_cases hne : files = []
  · subst hne
    refine ⟨rfl, rfl, by simp [sortedDataOf, genomeDataOf, discoveredOf]⟩
  · have h1 := runStateE_pure_eq_seeded c u1 numbins files hne h
    have h2 := runStateE_pure_eq_seeded c u2 numbins files hne h
    refine ⟨?_, ?_, ?_⟩
    · unfold greedy_partitioningE
      rw [h1, h2]
    · unfold greedy_partitioningE
      rw [h1]
      rfl
    · intro b hb
      obtain ⟨g, _, hg⟩ := List.mem_map.mp hb
      rw [← hg]
      rfl

/-- C5 witness: a concrete run with two items and two bins, where the claim's
hypothesis `N = numbins` holds; the two runs with different merge functions
agree and each bin keeps exactly its seeded item. -/
theorem C5_witness :
    greedy_partitioningE (Capability.ofPure (id : ℚ → ℚ) (· + ·)) 2
        [("a.hll", (7 : ℚ)), ("b.hll", 4)] =
      greedy_partitioningE (Capability.ofPure (id : ℚ → ℚ) (fun a _ => a)) 2
        [("a.hll", (7 : ℚ)), ("b.hll", 4)] ∧
    greedy_partitioningE (Capability.ofPure (id : ℚ → ℚ) (· + ·)) 2
        [("a.hll", (7 : ℚ)), ("b.hll", 4)] =
      Except.ok ((sortedDataOf (id : ℚ → ℚ) [("a.hll", (7 : ℚ)), ("b.hll", 4)]).map
          fun g => [g.1],
        (sortedDataOf (id : ℚ → ℚ) [("a.hll", (7 : ℚ)), ("b.hll", 4)]).map
          fun g => g.2.2) :=
  ⟨(C5_seed_exact id (· + ·) (fun a _ => a) 2 [("a.hll", 7), ("b.hll", 4)] (by decide)).1,
   (C5_seed_exact id (· + ·) (fun a _ => a) 2 [("a.hll", 7), ("b.hll", 4)] (by decide)).2.1⟩

/-- C7 counterexample: on a key with a directory component whose file name
consists only of reserved tokens, the code returns the basename
(`"31.hll"`), while the spec's described extraction on the raw key returns
`"foo/31"`; in particular the fallback is not "the raw key unchanged". -/
theorem C7_cex :
    extract_genome_name "foo/31.hll" = "31.hll" ∧
      canonical_name_spec "foo/31.hll" = "foo/31" ∧
      ("31.hll" : String) ≠ "foo/31" :=
  ⟨by decide, by decide, by decide⟩

/-- C7 amended: extraction is total and equals the spec's dot-token
procedure applied to the key's basename (the part after the last `/`):
the first non-reserved dot-token of the basename, and the basename — not
the raw key — when every token is reserved. -/
theorem C7_extract_eq_spec_of_basename (key : String) :
    extract_genome_name key = canonical_name_spec (pyBasename key) := rfl

/-- C10: for `numbins ≤ 0`, an empty input still returns two empty lists
with no error; a non-empty input reaches the greedy phase with an empty
`bin_cardinalities` list (the seed loop created no bins and assigned no
item), and the run fails there with Python's `min()`-on-empty error rather
than an up-front invalid-argument rejection. -/
theorem C10_nonpositive_numbins :
    (∀ (S : Type) (cap : Capability S) (numbins : Int), numbins ≤ 0 →
      greedy_partitioningE cap numbins [] = Except.ok ([], [])) ∧
    pyMinWithIndex ([] : List ℚ) = none ∧
    (∀ (S : Type) (sorted : List (String × S × ℚ)) (numbins : Int), numbins ≤ 0 →
      (List.range (min numbins (sorted.length : Int)).toNat).foldl (seedStep sorted)
          (initState S numbins) = (⟨[], [], []⟩ : PartState S)) ∧
    (∀ (S : Type) (c : S → ℚ) (u : S → S → S) (numbins : Int)
        (files : List (String × S)), numbins ≤ 0 → files ≠ [] →
      greedy_partitioningE (Capability.ofPure c u) numbins files =
        Except.error "ValueError: min() arg is an empty sequence") := by
  refine ⟨fun S cap numbins _ => rfl, rfl, ?_, ?_⟩
  · intro S sorted numbins hle
    have hk : (min numbins (sorted.length : Int)).toNat = 0 := by omega
    have hn : numbins.toNat = 0 := by omega
    rw [hk]
    simp only [List.range_zero, List.foldl_nil, initState, hn, List.replicate_zero]
  · intro S c u numbins files hle hne
    have hemp := discoveredOf_isEmpty_false hne
    have hgl := genomeDataOf_length c files
    have hsl := sortedDataOf_length c files
    have hrun : runStateE (Capability.ofPure c u) numbins files =
        greedyLoop (Capability.ofPure c u)
          ((List.range (min numbins ((genomeDataOf c files).length : Int)).toNat).foldl
            (seedStep (sortedDataOf c files)) (initState S numbins))
          (pySliceFrom numbins (sortedDataOf c files)) := by
      simp only [runStateE, hemp, Bool.false_eq_true, if_false, estimateAll_ofPure, bindE_ok]
      rfl
    have hk : (min numbins ((genomeDataOf c files).length : Int)).toNat = 0 := by omega
    have hn : numbins.toNat = 0 := by omega
    have hseed : (List.range (min numbins ((genomeDataOf c files).length : Int)).toNat).foldl
        (seedStep (sortedDataOf c files)) (initState S numbins) = (⟨[], [], []⟩ : PartState S) := by
      rw [hk]
      simp only [List.range_zero, List.foldl_nil, initState, hn, List.replicate_zero]
    have hsn : sortedDataOf c files ≠ [] := by
      intro h0
      have := sortedDataOf_length c files
      rw [h0] at this
      simp at this
      exact hne (List.length_eq_zero.mp this.symm)
    have hslice := pySliceFrom_ne_nil numbins (sortedDataOf c files) hle hsn
    cases hsl2 : pySliceFrom numbins (sortedDataOf c files) with
    | nil => exact absurd hsl2 hslice
    | cons g rest =>
      have hstep := greedyStepE_error_empty (Capability.ofPure c u)
        (⟨[], [], []⟩ : PartState S) g rfl
      unfold greedy_partitioningE
      rw [hrun, hseed, hsl2, greedyLoop_cons_error _ _ _ _ _ hstep]
      rfl

/-- C10 witness: with `numbins = 0` and one discovered item the run fails
with the `min()`-on-empty error; with `numbins = -1` and no items it
returns `([], [])` successfully. -/
theorem C10_witness :
    greedy_partitioningE (Capability.ofPure (id : ℚ → ℚ) (· + ·)) 0 [("a.hll", (1 : ℚ))] =
      Except.error "ValueError: min() arg is an empty sequence" ∧
    greedy_partitioningE pureCapQ (-1) [] = Except.ok ([], []) :=
  ⟨C10_nonpositive_numbins.2.2.2 ℚ id (· + ·) 0 [("a.hll", 1)] (by decide) (by decide),
   C10_nonpositive_numbins.1 ℚ pureCapQ (-1) (by decide)⟩

/-- C3: in the greedy phase each remaining item is assigned to the bin of
minimum current aggregate cardinality, lowest index on ties: the selected
index `j` is in range, the value at `j` is the minimum `v` of
`bin_cardinalities`, every bin before `j` has a strictly larger
cardinality (so `j` is the first index attaining the minimum), and on
success the step appends the item's name to exactly bin `j`. -/
theorem C3_min_bin_selection {S : Type} (cap : Capability S) (st st' : PartState S)
    (g : String × S × ℚ) (j : ℕ) (v : ℚ)
    (hm : pyMinWithIndex st.bin_cardinalities = some (j, v)) :
    (j < st.bin_cardinalities.length ∧
     st.bin_cardinalities.getD j 0 = v ∧
     (∀ i, i < st.bin_cardinalities.length → v ≤ st.bin_cardinalities.getD i 0) ∧
     (∀ i, i < j → v < st.bin_cardinalities.getD i 0)) ∧
    (greedyStepE cap st g = Except.ok st' →
      ∃ merged newc,
        st' = ⟨st.bin_result.set j (st.bin_result.getD j [] ++ [g.1]),
               st.bin_sketches.set j (some merged),
               st.bin_cardinalities.set j newc⟩) := by
  refine ⟨pyMinWithIndex_spec _ j v hm, ?_⟩
  intro hok
  obtain ⟨j', v', sk, merged, newc, hm', _, _, _, hst⟩ := greedyStepE_ok_elim hok
  rw [hm] at hm'
  simp only [Option.some.injEq, Prod.mk.injEq] at hm'
  obtain ⟨hj, _⟩ := hm'
  subst hj
  exact ⟨merged, newc, hst⟩

/-- C3 witness: with bin cardinalities `[100, 90]` the selected bin is the
second (index 1, cardinality 90), and the step appends the item name
there. -/
theorem C3_witness :
    pyMinWithIndex [100, 90] = some (1, 90) ∧
    ((1 < ([100, 90] : List ℚ).length ∧
      ([100, 90] : List ℚ).getD 1 0 = 90 ∧
      (∀ i, i < ([100, 90] : List ℚ).length → (90 : ℚ) ≤ ([100, 90] : List ℚ).getD i 0) ∧
      (∀ i, i < 1 → (90 : ℚ) < ([100, 90] : List ℚ).getD i 0)) ∧
     (greedyStepE pureCapQ
          (⟨[["a"], ["b"]], [some 2, some 3], [100, 90]⟩ : PartState ℚ) ("c", 7, 50) =
        Except.ok (⟨[["a"], ["b", "c"]], [some 2, some 10], [100, 10]⟩ : PartState ℚ) →
       ∃ merged newc,
         (⟨[["a"], ["b", "c"]], [some 2, some 10], [100, 10]⟩ : PartState ℚ) =
           ⟨([["a"], ["b"]] : List (List String)).set 1
              (([["a"], ["b"]] : List (List String)).getD 1 [] ++ ["c"]),
            ([some 2, some 3] : List (Option ℚ)).set 1 (some merged),
            ([100, 90] : List ℚ).set 1 newc⟩)) :=
  ⟨by decide,
   C3_min_bin_selection pureCapQ
     (⟨[["a"], ["b"]], [some 2, some 3], [100, 90]⟩ : PartState ℚ)
     (⟨[["a"], ["b", "c"]], [some 2, some 10], [100, 10]⟩ : PartState ℚ)
     ("c", 7, 50) 1 90 (by decide)⟩

/-- C2 counterexample: the claim fails in two ways.  With `numbins = 1` and
an empty input the result has zero bins, not one.  With two sketch files
that extract to the same genome name `"x"`, the name ends up in two
different bins. -/
theorem C2_cex :
    (greedy_partitioningE pureCapQ 1 [] = Except.ok ([], []) ∧
      ([] : List (List String)).length ≠ 1) ∧
    (greedy_partitioningE pureCapQ 2 [("x.fa.hll", (5 : ℚ)), ("x.hll", 3)] =
        Except.ok ([["x"], ["x"]], [5, 3]) ∧
      "x" ∈ ([["x"], ["x"]] : List (List String)).getD 0 [] ∧
      "x" ∈ ([["x"], ["x"]] : List (List String)).getD 1 []) := by
  refine ⟨⟨rfl, by decide⟩, ⟨?_, by decide, by decide⟩⟩
  decide

/-- C2 amended: for `numbins ≥ 1` and a non-empty input, the result has
exactly `numbins` bins and `numbins` cardinalities, the concatenation of
the bins is a permutation of the input items' extracted names (each item
is assigned to exactly one bin slot, nothing omitted or duplicated), and
when the extracted names are pairwise distinct each name appears in
exactly one bin. -/
theorem C2_partition {S : Type} (c : S → ℚ) (u : S → S → S) (numbins : Int)
    (files : List (String × S)) (h1 : 1 ≤ numbins) (hne : files ≠ []) :
    ∃ bins cards,
      greedy_partitioningE (Capability.ofPure c u) numbins files =
        Except.ok (bins, cards) ∧
      bins.length = numbins.toNat ∧ cards.length = numbins.toNat ∧
      bins.flatten.Perm (files.map fun f => extract_genome_name f.1) ∧
      ((files.map fun f => extract_genome_name f.1).Nodup →
        ∀ nm ∈ files.map fun f => extract_genome_name f.1,
          ∃! i, ∃ h : i < bins.length, nm ∈ bins.get ⟨i, h⟩) := by
  obtain ⟨st', hrun, ⟨hr, _, hc⟩, hperm⟩ := runStateE_pure_spec c u numbins files h1 hne
  refine ⟨st'.bin_result, st'.bin_cardinalities, ?_, hr, hc, hperm, ?_⟩
  · unfold greedy_partitioningE
    rw [hrun]
    rfl
  · intro hnd nm hnm
    have hndf : st'.bin_result.flatten.Nodup := (hperm.nodup_iff).mpr hnd
    have hmemf : nm ∈ st'.bin_result.flatten := hperm.mem_iff.mpr hnm
    obtain ⟨b, hbL, hnb⟩ := List.mem_flatten.mp hmemf
    obtain ⟨⟨i, hi⟩, hbi⟩ := List.mem_iff_get.mp hbL
    have hmi : nm ∈ st'.bin_result.get ⟨i, hi⟩ := by rw [hbi]; exact hnb
    refine ⟨i, ⟨hi, hmi⟩, ?_⟩
    rintro i' ⟨hi', hnb'⟩
    obtain ⟨-, hdisj⟩ := List.nodup_flatten.mp hndf
    by_contra hne'
    have hpg := List.pairwise_iff_get.mp hdisj
    rcases Nat.lt_or_ge i' i with hlt | hge
    · exact (hpg ⟨i', hi'⟩ ⟨i, hi⟩ (Fin.mk_lt_mk.mpr hlt)) hnb' hmi
    · have hlt2 : i < i' := by omega
      exact (hpg ⟨i, hi⟩ ⟨i', hi'⟩ (Fin.mk_lt_mk.mpr hlt2)) hmi hnb'

/-- C2 witness: three items into two bins — the run succeeds, produces two
bins whose members are a permutation of the three distinct extracted
names, and each name sits in exactly one bin. -/
theorem C2_witness :
    (1 : Int) ≤ 2 ∧ ([("a.hll", (3 : ℚ)), ("b.hll", 2), ("c.hll", 1)] :
        List (String × ℚ)) ≠ [] ∧
    ∃ bins cards,
      greedy_partitioningE (Capability.ofPure (id : ℚ → ℚ) (· + ·)) 2
          [("a.hll", (3 : ℚ)), ("b.hll", 2), ("c.hll", 1)] =
        Except.ok (bins, cards) ∧
      bins.length = (2 : Int).toNat ∧ cards.length = (2 : Int).toNat ∧
      bins.flatten.Perm (([("a.hll", (3 : ℚ)), ("b.hll", 2), ("c.hll", 1)] :
        List (String × ℚ)).map fun f => extract_genome_name f.1) ∧
      ((([("a.hll", (3 : ℚ)), ("b.hll", 2), ("c.hll", 1)] :
          List (String × ℚ)).map fun f => extract_genome_name f.1).Nodup →
        ∀ nm ∈ ([("a.hll", (3 : ℚ)), ("b.hll", 2), ("c.hll", 1)] :
            List (String × ℚ)).map fun f => extract_genome_name f.1,
          ∃! i, ∃ h : i < bins.length, nm ∈ bins.get ⟨i, h⟩) :=
  ⟨by decide, by decide,
   C2_partition id (· + ·) 2 [("a.hll", 3), ("b.hll", 2), ("c.hll", 1)]
     (by decide) (by decide)⟩

/-- C9: every bin's recorded aggregate cardinality is the estimator's value
for the bin's current aggregate sketch (`0` for a bin with no sketch file):
the greedy step preserves this invariant (it re-estimates from the merged
sketch, never adds cardinalities), and every state produced by a
successful run satisfies it. -/
theorem C9_card_consistent :
    (∀ (S : Type) (cap : Capability S) (st st' : PartState S) (g : String × S × ℚ),
      BinInvE cap st → greedyStepE cap st g = Except.ok st' → BinInvE cap st') ∧
    (∀ (S : Type) (cap : Capability S) (numbins : Int) (files : List (String × S))
        (st' : PartState S),
      runStateE cap numbins files = Except.ok st' → BinInvE cap st') :=
  ⟨fun _ cap st st' g => greedyStepE_preserves_inv cap st st' g,
   fun _ cap numbins files st' => runStateE_ok_inv cap numbins files st'⟩

/-- C9 witness: the state reached by a concrete two-item run satisfies the
invariant — each seeded bin's cardinality is the estimate of its sketch. -/
theorem C9_witness :
    BinInvE pureCapQ (⟨[["a"], ["b"]], [some 7, some 4], [7, 4]⟩ : PartState ℚ) :=
  C9_card_consistent.2 ℚ pureCapQ 2 [("a.hll", 7), ("b.hll", 4)]
    (⟨[["a"], ["b"]], [some 7, some 4], [7, 4]⟩ : PartState ℚ) (by rfl)

/-- C8: capability failures are fatal and propagate.  (i) If the
partitioner fails, `__main__` fails with the same error and produces
neither the assignment record nor the completion marker.  (ii) If the
cardinality estimate of any discovered sketch fails, the whole run fails.
(iii) If merging always fails and the greedy phase has at least one item
to place, the whole run fails. -/
theorem C8_failure_aborts :
    (∀ (S : Type) (cap : Capability S) (numbins : Int) (files : List (String × S))
        (fname e : String),
      greedy_partitioningE cap numbins files = Except.error e →
      mainE cap numbins files fname = Except.error e) ∧
    (∀ (S : Type) (cap : Capability S) (numbins : Int) (files : List (String × S)),
      (∃ ps ∈ discoveredOf files, ∃ e, cap.card ps.2 = Except.error e) →
      ∃ e', greedy_partitioningE cap numbins files = Except.error e') ∧
    (∀ (S : Type) (c : S → ℚ) (e : String) (numbins : Int) (files : List (String × S)),
      pySliceFrom numbins (sortedDataOf c files) ≠ [] →
      ∃ e', greedy_partitioningE ⟨fun s => Except.ok (c s), fun _ _ => Except.error e⟩
        numbins files = Except.error e') := by
  refine ⟨?_, ?_, ?_⟩
  · intro S cap numbins files fname e h
    unfold mainE
    rw [h, bindE_error]
  · rintro S cap numbins files ⟨ps, hps, e, he⟩
    have hne : discoveredOf files ≠ [] := List.ne_nil_of_mem hps
    have hemp : (discoveredOf files).isEmpty = false := by
      cases hd : discoveredOf files with
      | nil => exact absurd hd hne
      | cons a l => rfl
    obtain ⟨e', he'⟩ := estimateAll_error_of_mem cap (discoveredOf files) ⟨ps, hps, e, he⟩
    refine ⟨e', ?_⟩
    unfold greedy_partitioningE runStateE
    simp only [hemp, Bool.false_eq_true, if_false, he', bindE_error]
    rfl
  · intro S c e numbins files hslice
    have hfne : files ≠ [] := by
      intro h0
      subst h0
      exact hslice (pySliceFrom_nil numbins)
    have hemp := discoveredOf_isEmpty_false hfne
    have hest := estimateAll_of_card_ok
      (⟨fun s => Except.ok (c s), fun _ _ => Except.error e⟩ : Capability S) c
      (fun _ => rfl) (discoveredOf files)
    have hrun : runStateE
        (⟨fun s => Except.ok (c s), fun _ _ => Except.error e⟩ : Capability S)
        numbins files =
      greedyLoop (⟨fun s => Except.ok (c s), fun _ _ => Except.error e⟩ : Capability S)
        ((List.range (min numbins ((genomeDataOf c files).length : Int)).toNat).foldl
          (seedStep (sortedDataOf c files)) (initState S numbins))
        (pySliceFrom numbins (sortedDataOf c files)) := by
      simp only [runStateE, hemp, Bool.false_eq_true, if_false, hest, bindE_ok]
      rfl
    cases hsl : pySliceFrom numbins (sortedDataOf c files) with
    | nil => exact absurd hsl hslice
    | cons g rest =>
      obtain ⟨e', hstep⟩ := greedyStepE_error_of_union_err c e _ g
      refine ⟨e', ?_⟩
      unfold greedy_partitioningE
      rw [hrun, hsl, greedyLoop_cons_error _ _ _ _ _ hstep]
      rfl

/-- C8 witness: with a capability whose estimator always fails, a concrete
one-item run fails, and `__main__` propagates the same error, writing
nothing. -/
theorem C8_witness :
    (∃ e', greedy_partitioningE badCapQ 1 [("a.hll", (0 : ℚ))] = Except.error e') ∧
    mainE badCapQ 1 [("a.hll", (0 : ℚ))] "run1" = Except.error "dashing card failed" :=
  ⟨C8_failure_aborts.2.1 ℚ badCapQ 1 [("a.hll", (0 : ℚ))]
     ⟨("a.hll", (0 : ℚ)), by decide, "dashing card failed", rfl⟩,
   C8_failure_aborts.1 ℚ badCapQ 1 [("a.hll", (0 : ℚ))] "run1" "dashing card failed"
     (by rfl)⟩

/-- C6: the run is deterministic.  (i) The result is independent of the
order in which distinct sketch files are discovered (the code sorts the
glob result).  (ii) Discovered files are processed in lexicographic path
order.  (iii) Items are sorted by cardinality descending.  (iv) The sort
is stable: for each cardinality value, the items carrying it stay in
discovery order. -/
theorem C6_deterministic :
    (∀ (S : Type) (cap : Capability S) (numbins : Int)
        (files1 files2 : List (String × S)),
      files1.Perm files2 → (files1.map Prod.fst).Nodup →
      greedy_partitioningE cap numbins files1 = greedy_partitioningE cap numbins files2) ∧
    (∀ (S : Type) (files : List (String × S)),
      List.Sorted pathLe (discoveredOf files)) ∧
    (∀ (S : Type) (c : S → ℚ) (files : List (String × S)),
      List.Sorted cardGe (sortedDataOf c files)) ∧
    (∀ (S : Type) (c : S → ℚ) (files : List (String × S)) (q : ℚ),
      (sortedDataOf c files).filter (fun g => decide (g.2.2 = q)) =
        (genomeDataOf c files).filter (fun g => decide (g.2.2 = q))) := by
  refine ⟨?_, ?_, ?_, ?_⟩
  · intro S cap numbins files1 files2 hp hnd
    unfold greedy_partitioningE runStateE
    rw [discoveredOf_eq_of_perm hp hnd]
  · intro S files
    exact List.sorted_insertionSort pathLe files
  · intro S c files
    exact List.sorted_insertionSort cardGe (genomeDataOf c files)
  · intro S c files q
    exact filter_insertionSort_card q (genomeDataOf c files)

/-- C6 witness: two discovery orders of the same two distinct files give
identical results. -/
theorem C6_witness :
    ([("b.hll", (1 : ℚ)), ("a.hll", 2)] : List (String × ℚ)).Perm
        [("a.hll", (2 : ℚ)), ("b.hll", 1)] ∧
    (([("b.hll", (1 : ℚ)), ("a.hll", 2)] : List (String × ℚ)).map Prod.fst).Nodup ∧
    greedy_partitioningE pureCapQ 2 [("b.hll", (1 : ℚ)), ("a.hll", 2)] =
      greedy_partitioningE pureCapQ 2 [("a.hll", (2 : ℚ)), ("b.hll", 1)] :=
  ⟨List.Perm.swap _ _ _, by decide,
   C6_deterministic.1 ℚ pureCapQ 2 _ _ (List.Perm.swap _ _ _) (by decide)⟩

/-- C4: the concrete balance scenario.  Four items with pairwise disjoint
contents of sizes 100, 90, 50, 10: the seed phase fills bin 0 with the
100-item and bin 1 with the 90-item; the 50-item joins bin 1 (the first
minimum, 90), giving 140; the 10-item joins bin 0 (minimum 100), giving
110; final bins are `{a, d}` at 110 and `{b, c}` at 140. -/
theorem C4_concrete_trace :
    greedy_partitioningE capFinset 2
        [("a.hll", Finset.range 100), ("b.hll", Finset.Ico 200 290),
         ("c.hll", Finset.Ico 300 350), ("d.hll", Finset.Ico 400 410)] =
      Except.ok ([["a", "d"], ["b", "c"]], [110, 140]) ∧
    ([Finset.range 100, Finset.Ico 200 290, Finset.Ico 300 350,
        Finset.Ico 400 410] : List (Finset ℕ)).Pairwise Disjoint ∧
    capFinset.card (Finset.range 100) = Except.ok 100 ∧
    capFinset.card (Finset.Ico 200 290) = Except.ok 90 ∧
    capFinset.card (Finset.Ico 300 350) = Except.ok 50 ∧
    capFinset.card (Finset.Ico 400 410) = Except.ok 10 ∧
    pyMinWithIndex [100, 90] = some (1, 90) ∧
    capFinset.card (Finset.Ico 200 290 ∪ Finset.Ico 300 350) = Except.ok 140 ∧
    pyMinWithIndex [100, 140] = some (0, 100) ∧
    capFinset.card (Finset.range 100 ∪ Finset.Ico 400 410) = Except.ok 110 := by
  refine ⟨by decide, by decide, by decide, by decide, by decide, by decide, by decide,
    by decide, by decide, by decide⟩

end HLLB
